import Mathlib

/-!
Verification of the election evaluation and divergence-search scripts
(sim_total_divergence3.py, sim_total_divergence_CW_SCORE_RUNOFF.py,
sim_star_crunch.py, add_extra_expl.py, sim_divergence.py).

Candidates are modelled as natural numbers: the scripts build their candidate
lists as consecutive capital letters `[chr(65+i) for i in range(C)]`, whose
lexicographic string order coincides with the order of the indices, so every
comparison or sort the Python code performs on candidate labels is mirrored by
the order on `Nat`.

A ballot is a list of scores indexed by candidate (`b.get(cand, 0)` on the
Python dict becomes `List.getD` with default 0); a profile is a list of
ballots.
-/

/-- A ballot: per-candidate scores, indexed by candidate number. -/
abbrev Ballot := List Nat

/-- A ballot profile: the ballots of one election instance. -/
abbrev Profile := List Ballot

/-- Embedding of `b.get(cand, 0)`: the score a ballot gives a candidate, 0 when absent. -/
def score (b : Ballot) (c : Nat) : Nat := b.getD c 0

/-- Number of ballots preferring `x` over `y`
(`sum(1 for b in ballots if b.get(x, 0) > b.get(y, 0))`). -/
def prefCount (ballots : Profile) (x y : Nat) : Nat :=
  (ballots.filter (fun b => score b y < score b x)).length

/-- Number of ballots scoring `x` and `y` equally. -/
def samePrefCount (ballots : Profile) (x y : Nat) : Nat :=
  (ballots.filter (fun b => !(score b y < score b x) && !(score b x < score b y))).length

/-- Total score of a candidate (`sum(b.get(c, 0) for b in ballots)`). -/
def totalScore (ballots : Profile) (c : Nat) : Nat :=
  (ballots.map (fun b => score b c)).sum

/-- One step of the stable descending insertion sort: place `c` in front of the
first element whose key is not larger than `c`'s. -/
def insertByDesc (key : Nat → Nat) (c : Nat) : List Nat → List Nat
  | [] => [c]
  | x :: xs => if key x ≤ key c then c :: x :: xs else x :: insertByDesc key c xs

/-- Stable descending sort by key, the embedding of Python's
`sorted(items, key=lambda x: x[1], reverse=True)`: Python's sort is stable and
sorts descending by total here, and the stable descending sort of a list is
unique, so this insertion sort computes the same list. -/
def sortByDesc (key : Nat → Nat) : List Nat → List Nat
  | [] => []
  | x :: xs => insertByDesc key x (sortByDesc key xs)

/-- Ascending insertion step for plain values. -/
def insertAsc (c : Nat) : List Nat → List Nat
  | [] => [c]
  | x :: xs => if c ≤ x then c :: x :: xs else x :: insertAsc c xs

/-- Ascending sort of plain values, the embedding of Python's `sorted(tie)`. -/
def sortAsc : List Nat → List Nat
  | [] => []
  | x :: xs => insertAsc x (sortAsc xs)

/-- Embedding of `get_score_winner` (sim_total_divergence3.py:60-64 and the identical
totals-then-stable-descending-sort logic of
sim_total_divergence_CW_SCORE_RUNOFF.py:38-48): the head of the stable
descending sort of the candidates by total score.  The Python function raises
`IndexError` on an empty candidate list; that boundary is `none` here. -/
def get_score_winner (ballots : Profile) (cands : List Nat) : Option Nat :=
  (sortByDesc (totalScore ballots) cands).head?

/-- The inner loop of `get_condorcet_winner`: `cand` strictly beats every
other candidate head-to-head (sim_star_crunch.py:40-58,
sim_total_divergence3.py:45-56, sim_total_divergence_CW_SCORE_RUNOFF.py:14-34:
`continue` on `opp == cand`, `beaten_all = False` unless
`cand_wins > opp_wins` strictly). -/
def beatsAll (ballots : Profile) (cands : List Nat) (cand : Nat) : Bool :=
  cands.all (fun opp => opp == cand || prefCount ballots opp cand < prefCount ballots cand opp)

/-- Embedding of `get_condorcet_winner` (sim_star_crunch.py:36-59,
sim_total_divergence3.py:44-57,
sim_total_divergence_CW_SCORE_RUNOFF.py:13-35): scan the candidates in list
order and return the first one beating all others, else `None` ("Cycle"). -/
def get_condorcet_winner (ballots : Profile) (cands : List Nat) : Option Nat :=
  cands.find? (beatsAll ballots cands)

/-- The runoff round shared verbatim by `get_star_winner_quick`
(sim_total_divergence3.py:104-112) and `get_star_winner`
(sim_total_divergence_CW_SCORE_RUNOFF.py:58-72): strictly more supporting
ballots win; exact equality returns `None` ("Tie in runoff"). -/
def runoffWinner (ballots : Profile) (fa fb : Nat) : Option Nat :=
  let v1 := prefCount ballots fa fb
  let v2 := prefCount ballots fb fa
  if v2 < v1 then some fa
  else if v1 < v2 then some fb
  else none

/-- Embedding of `get_star_winner_quick` (sim_total_divergence3.py:67-112).  Scoring round:
stable descending sort by total; with fewer than 2 candidates the sole
candidate wins (the Python raises `IndexError` on an empty candidate list,
`none` here).  If the 2nd and 3rd sorted candidates have equal totals and the
3rd strictly beats the 2nd head-to-head, the 3rd becomes finalist B.  Then the
runoff round. -/
def get_star_winner_quick (ballots : Profile) (cands : List Nat) : Option Nat :=
  match sortByDesc (totalScore ballots) cands with
  | [] => none
  | [c] => some c
  | a :: b :: rest =>
    let fb :=
      match rest with
      | [] => b
      | c3 :: _ =>
        if totalScore ballots b = totalScore ballots c3 ∧
            prefCount ballots b c3 < prefCount ballots c3 b then c3
        else b
    runoffWinner ballots a fb

/-- Embedding of `get_star_winner` (sim_total_divergence_CW_SCORE_RUNOFF.py:51-72): the top
two of the stable descending sort go straight to the runoff, with no 2nd/3rd
scoring tie-break.  The Python raises `IndexError` with fewer than two
candidates; that boundary is `none` here. -/
def get_star_winner (ballots : Profile) (cands : List Nat) : Option Nat :=
  match sortByDesc (totalScore ballots) cands with
  | a :: b :: _ => runoffWinner ballots a b
  | _ => none

/-- Embedding of `SilentSequenceTiebreaker` (sim_total_divergence3.py:34-40,
sim_star_crunch.py:27-33): stores the constructor's `mode` argument and
nothing else. -/
structure SilentSequenceTiebreaker where
  mode : String

/-- Embedding of `SilentSequenceTiebreaker.__call__`, which returns `sorted(list(tie))[:desired]`.
`options` (and the `exception` argument, omitted here) are ignored, as is the
stored `mode`. -/
def SilentSequenceTiebreaker.call (tb : SilentSequenceTiebreaker)
    (options : List Nat) (tie : List Nat) (desired : Nat) : List Nat :=
  (sortAsc tie).take desired

/-- The 2nd/3rd scoring tie-break rule as §4.4 of the spec words it, for
refinement comparison with the code: when the 2nd and 3rd totals are tied,
finalist B is whichever of the two is preferred head-to-head by more ballots;
a head-to-head tie falls through to the configured Tiebreak Strategy
(`SilentSequenceTiebreaker`, which picks the lexicographically first). -/
def specFinalistB (ballots : Profile) (c2 c3 : Nat) : Nat :=
  if prefCount ballots c3 c2 < prefCount ballots c2 c3 then c2
  else if prefCount ballots c2 c3 < prefCount ballots c3 c2 then c3
  else (SilentSequenceTiebreaker.call ⟨"left"⟩ [] [c2, c3] 1).headD c2

/-- The fast STAR-winner rule as the spec words it (§4.4/§4.8), for refinement
comparison: same scoring round and runoff as the code, with finalist B chosen
by `specFinalistB` whenever the 2nd and 3rd totals are tied. -/
def starRuleSpec (ballots : Profile) (cands : List Nat) : Option Nat :=
  match sortByDesc (totalScore ballots) cands with
  | [] => none
  | [c] => some c
  | a :: b :: rest =>
    let fb :=
      match rest with
      | [] => b
      | c3 :: _ =>
        if totalScore ballots b = totalScore ballots c3 then specFinalistB ballots b c3
        else b
    runoffWinner ballots a fb

/-- One cell of `calculate_preference_matrix` (add_extra_expl.py:185-218):
self-pairs are `(0, 0, N)`; a distinct pair `(ci, cj)` counts the ballots with
`score ci > score cj`, with `score cj > score ci`, and the rest
("no preference"). -/
def prefMatrixEntry (ballots : Profile) (ci cj : Nat) : Nat × Nat × Nat :=
  if ci = cj then (0, 0, ballots.length)
  else (prefCount ballots ci cj, prefCount ballots cj ci, samePrefCount ballots ci cj)

/-- Embedding of `calculate_preference_matrix` (add_extra_expl.py:185-218): `None` when the
profile or the candidate list is empty, otherwise the matrix of
`prefMatrixEntry` cells. -/
def calculate_preference_matrix (candidates : List Nat) (ballots : Profile) :
    Option (Nat → Nat → Nat × Nat × Nat) :=
  if ballots = [] ∨ candidates = [] then none else some (prefMatrixEntry ballots)

/-- One cell of the positional variant of `calculate_preference_matrix`
(sim_divergence.py:74-110): ballots are bare score lists and candidates are
addressed by index; a ballot contributes to a pair `(i, j)` only when both
indices are in range (`if i < len(ballot) and j < len(ballot)`). -/
def prefMatrixEntryIdx (ballots : List (List Nat)) (i j : Nat) : Nat × Nat × Nat :=
  if i = j then (0, 0, ballots.length)
  else
    ((ballots.filter (fun b => i < b.length && j < b.length && b.getD j 0 < b.getD i 0)).length,
     (ballots.filter (fun b => i < b.length && j < b.length && b.getD i 0 < b.getD j 0)).length,
     (ballots.filter (fun b => i < b.length && j < b.length &&
        !(b.getD j 0 < b.getD i 0) && !(b.getD i 0 < b.getD j 0))).length)

/-- The triple-divergence test of phase 1 (sim_total_divergence3.py:350-355):
`if cw and (cw != sw) and (sw != star) and (cw != star)`, with `star` the full
resolver's winner. -/
def tripleDivFlag (cw : Option Nat) (sw star : Nat) : Bool :=
  match cw with
  | none => false
  | some c => c != sw && sw != star && c != star

/-- The Hunter's candidate test (sim_total_divergence3.py:417-434): skip when
Condorcet has no winner, when `cw == sw`, or when the quick STAR estimate has
no winner; otherwise require `(sw != star) and (star != cw) and (sw != cw)`. -/
def hunterTripleCandidate (ballots : Profile) (cands : List Nat) : Bool :=
  match get_condorcet_winner ballots cands with
  | none => false
  | some cw =>
    match get_score_winner ballots cands with
    | none => false
    | some sw =>
      if cw == sw then false
      else
        match get_star_winner_quick ballots cands with
        | none => false
        | some star => sw != star && star != cw && sw != cw

/-- The Hunter's emission decision (sim_total_divergence3.py:417-481): a
candidate profile passing `hunterTripleCandidate` is re-verified against the
full STAR resolver (`solve_star_election_with_full_blocks`, whose winner is
passed in here as `fullWinner`); on disagreement the sample is discarded
(`if data["winner"] != star: continue`), otherwise it is emitted. -/
def hunterEmits (fullWinner : Option Nat) (ballots : Profile) (cands : List Nat) : Bool :=
  match get_condorcet_winner ballots cands with
  | none => false
  | some cw =>
    match get_score_winner ballots cands with
    | none => false
    | some sw =>
      if cw == sw then false
      else
        match get_star_winner_quick ballots cands with
        | none => false
        | some star =>
          if sw != star && star != cw && sw != cw then fullWinner == some star
          else false

/-- Embedding of `chunk_index = i // ROWS_PER_FILE` (sim_star_crunch.py:276,
sim_total_divergence3.py:306). -/
def chunkIndex (rows i : Nat) : Nat := i / rows

/-- Embedding of `total_chunks = math.ceil(total_combinations / ROWS_PER_FILE)`
(sim_star_crunch.py:216, sim_total_divergence3.py:252). -/
def totalChunksFor (total rows : Nat) : Nat := (total + rows - 1) / rows

/-- The boundary-sampling test (sim_star_crunch.py:277-280,
sim_total_divergence3.py:307-310): position `i` is evaluated iff its chunk is
among the first `first` chunks or the last `last` chunks. -/
def isEvaluated (rows first last totalChunks i : Nat) : Bool :=
  chunkIndex rows i < first || totalChunks - last ≤ chunkIndex rows i

/-- Prepend `s` to every list in `ts`. -/
def prependEach (s : Nat) (ts : List (List Nat)) : List (List Nat) :=
  ts.map (fun t => s :: t)

/-- One step of the cartesian product: for each score in menu order, prepend
it to every already-built tail. -/
def productStep (scores : List Nat) (ts : List (List Nat)) : List (List Nat) :=
  match scores with
  | [] => []
  | s :: rest => prependEach s ts ++ productStep rest ts

/-- Embedding of `itertools.product(VALID_SCORES, repeat=n)` (sim_star_crunch.py:231,
sim_total_divergence3.py:261): all `n`-tuples over the score menu, first
coordinate varying slowest. -/
def pyProduct (scores : List Nat) : Nat → List (List Nat)
  | 0 => [[]]
  | n + 1 => productStep scores (pyProduct scores n)

/-- Embedding of `itertools.combinations_with_replacement(pool, r)`
(sim_star_crunch.py:232, sim_total_divergence3.py:262): all multisets of size
`r` over the pool, as non-decreasing index tuples in lexicographic order:
first every tuple starting with the pool's head, then the tuples over the
tail. -/
def cwr (pool : List (List Nat)) (r : Nat) : List (List (List Nat)) :=
  match pool, r with
  | _, 0 => [[]]
  | [], _ + 1 => []
  | x :: xs, s + 1 => (cwr (x :: xs) s).map (fun t => x :: t) ++ cwr xs (s + 1)
termination_by (r, pool.length)

/-! ### Generic counting and sorting lemmas -/

/-- Splitting a list's length over three mutually exclusive, jointly exhaustive
boolean tests. -/
theorem length_filter_partition {α : Type} (l : List α) (p q r : α → Bool)
    (h : ∀ x ∈ l, (p x = true → q x = false) ∧ r x = (!p x && !q x)) :
    (l.filter p).length + (l.filter q).length + (l.filter r).length = l.length := by
  induction l with
  | nil => simp
  | cons a l ih =>
    have ha := h a (List.mem_cons_self a l)
    have ihl := ih (fun x hx => h x (List.mem_cons_of_mem a hx))
    cases hpa : p a with
    | true =>
      have hqa : q a = false := ha.1 hpa
      have hra : r a = false := by rw [ha.2, hpa]; rfl
      simp [List.filter_cons, hpa, hqa, hra]
      omega
    | false =>
      cases hqa : q a with
      | true =>
        have hra : r a = false := by rw [ha.2, hpa, hqa]; rfl
        simp [List.filter_cons, hpa, hqa, hra]
        omega
      | false =>
        have hra : r a = true := by rw [ha.2, hpa, hqa]; rfl
        simp [List.filter_cons, hpa, hqa, hra]
        omega

theorem insertByDesc_perm (key : Nat → Nat) (c : Nat) (l : List Nat) :
    (insertByDesc key c l).Perm (c :: l) := by
  induction l with
  | nil => exact List.Perm.refl _
  | cons x xs ih =>
    unfold insertByDesc
    by_cases h : key x ≤ key c
    · simp [h]
    · simp only [h, if_false]
      exact (ih.cons x).trans (List.Perm.swap c x xs)

theorem sortByDesc_perm (key : Nat → Nat) (l : List Nat) :
    (sortByDesc key l).Perm l := by
  induction l with
  | nil => exact List.Perm.refl _
  | cons x xs ih =>
    exact (insertByDesc_perm key x (sortByDesc key xs)).trans (ih.cons x)

theorem mem_sortByDesc {key : Nat → Nat} {l : List Nat} {a : Nat} :
    a ∈ sortByDesc key l ↔ a ∈ l :=
  (sortByDesc_perm key l).mem_iff

/-- The invariant of a stable descending sort of a strictly increasing input:
later entries have strictly smaller keys, or equal keys and larger values. -/
def stabRel (key : Nat → Nat) (a b : Nat) : Prop :=
  key b < key a ∨ (key a = key b ∧ a < b)

theorem insertByDesc_stab (key : Nat → Nat) (c : Nat) (l : List Nat)
    (hl : l.Pairwise (stabRel key)) (hc : ∀ y ∈ l, c < y) :
    (insertByDesc key c l).Pairwise (stabRel key) := by
  induction l with
  | nil => simp [insertByDesc, List.pairwise_cons]
  | cons x xs ih =>
    rw [List.pairwise_cons] at hl
    unfold insertByDesc
    by_cases h : key x ≤ key c
    · simp only [h, if_true]
      rw [List.pairwise_cons]
      refine ⟨?_, List.pairwise_cons.2 hl⟩
      intro y hy
      have hyle : key y ≤ key x := by
        rcases List.mem_cons.1 hy with hyx | hyxs
        · exact le_of_eq (congrArg key hyx)
        · rcases hl.1 y hyxs with h1 | h2
          · exact le_of_lt h1
          · exact le_of_eq h2.1.symm
      rcases lt_or_eq_of_le (le_trans hyle h) with hlt | heq
      · exact Or.inl hlt
      · exact Or.inr ⟨heq.symm, hc y hy⟩
    · simp only [h, if_false]
      rw [List.pairwise_cons]
      refine ⟨?_, ih hl.2 (fun y hy => hc y (List.mem_cons_of_mem x hy))⟩
      intro y hy
      rcases List.mem_cons.1 ((insertByDesc_perm key c xs).mem_iff.1 hy) with hyc | hyxs
      · subst hyc
        exact Or.inl (Nat.lt_of_not_le h)
      · exact hl.1 y hyxs

theorem sortByDesc_stab (key : Nat → Nat) (l : List Nat)
    (h : l.Pairwise (· < ·)) :
    (sortByDesc key l).Pairwise (stabRel key) := by
  induction l with
  | nil => simp [sortByDesc]
  | cons x xs ih =>
    rw [List.pairwise_cons] at h
    exact insertByDesc_stab key x (sortByDesc key xs) (ih h.2)
      (fun y hy => h.1 y (mem_sortByDesc.1 hy))

/-- A stable sort with a constant key is the identity. -/
theorem sortByDesc_const (key : Nat → Nat) (l : List Nat)
    (h : ∀ a b : Nat, key a = key b) : sortByDesc key l = l := by
  induction l with
  | nil => rfl
  | cons x xs ih =>
    rw [sortByDesc, ih]
    cases xs with
    | nil => rfl
    | cons y ys => simp [insertByDesc, le_of_eq (h y x)]

theorem insertAsc_perm (c : Nat) (l : List Nat) :
    (insertAsc c l).Perm (c :: l) := by
  induction l with
  | nil => exact List.Perm.refl _
  | cons x xs ih =>
    unfold insertAsc
    by_cases h : c ≤ x
    · simp [h]
    · simp only [h, if_false]
      exact (ih.cons x).trans (List.Perm.swap c x xs)

theorem sortAsc_perm (l : List Nat) : (sortAsc l).Perm l := by
  induction l with
  | nil => exact List.Perm.refl _
  | cons x xs ih =>
    exact (insertAsc_perm x (sortAsc xs)).trans (ih.cons x)

theorem insertAsc_sorted (c : Nat) (l : List Nat)
    (hl : l.Pairwise (· ≤ ·)) : (insertAsc c l).Pairwise (· ≤ ·) := by
  induction l with
  | nil => simp [insertAsc, List.pairwise_cons]
  | cons x xs ih =>
    rw [List.pairwise_cons] at hl
    unfold insertAsc
    by_cases h : c ≤ x
    · simp only [h, if_true]
      rw [List.pairwise_cons]
      refine ⟨?_, List.pairwise_cons.2 hl⟩
      intro y hy
      rcases List.mem_cons.1 hy with hyx | hyxs
      · exact hyx ▸ h
      · exact le_trans h (hl.1 y hyxs)
    · simp only [h, if_false]
      rw [List.pairwise_cons]
      refine ⟨?_, ih hl.2⟩
      intro y hy
      rcases List.mem_cons.1 ((insertAsc_perm c xs).mem_iff.1 hy) with hyc | hyxs
      · exact hyc ▸ le_of_lt (Nat.lt_of_not_le h)
      · exact hl.1 y hyxs

theorem sortAsc_sorted (l : List Nat) : (sortAsc l).Pairwise (· ≤ ·) := by
  induction l with
  | nil => simp [sortAsc]
  | cons x xs ih => exact insertAsc_sorted x (sortAsc xs) ih

/-! ### Concrete profiles used as witnesses and counterexamples -/

/-- A 3-candidate, 5-ballot profile: totals are 12, 10, 10; candidate 0 beats
1 head-to-head 4-1, candidate 2 beats 0 head-to-head 3-2 and beats 1
head-to-head 3-2. -/
def Pcex : Profile := [[2,1,3],[2,1,3],[5,2,1],[0,5,1],[3,1,2]]

/-! ### C3: pairwise-tally invariants -/

/-- C3. For every profile and every ordered pair of distinct candidates
`(X,Y)`, the pairwise tally satisfies
`for_i(X,Y) + against_i(X,Y) + no_pref(X,Y) = total ballots` and
`for_i(X,Y) = against_i(Y,X)`; every self-pair is `(0, 0, N)`.  This holds
for the dict-based `calculate_preference_matrix` of add_extra_expl.py
unconditionally, and for the positional variant of sim_divergence.py whenever
every ballot covers the full candidate list (the data-model invariant); the
positional variant's symmetry needs no such hypothesis. -/
theorem pairwise_tally_invariants : ∀ (ballots : Profile) (ci cj : Nat),
    (ci ≠ cj →
      (prefMatrixEntry ballots ci cj).1 + (prefMatrixEntry ballots ci cj).2.1 +
        (prefMatrixEntry ballots ci cj).2.2 = ballots.length ∧
      (prefMatrixEntry ballots ci cj).1 = (prefMatrixEntry ballots cj ci).2.1) ∧
    prefMatrixEntry ballots ci ci = (0, 0, ballots.length) ∧
    (∀ (cands : List Nat) (M : Nat → Nat → Nat × Nat × Nat),
      calculate_preference_matrix cands ballots = some M → M = prefMatrixEntry ballots) ∧
    (∀ numC : Nat, ci ≠ cj → ci < numC → cj < numC → (∀ b ∈ ballots, b.length = numC) →
      (prefMatrixEntryIdx ballots ci cj).1 + (prefMatrixEntryIdx ballots ci cj).2.1 +
        (prefMatrixEntryIdx ballots ci cj).2.2 = ballots.length) ∧
    (ci ≠ cj →
      (prefMatrixEntryIdx ballots ci cj).1 = (prefMatrixEntryIdx ballots cj ci).2.1) := by
  intro ballots ci cj
  refine ⟨fun hne => ⟨?_, ?_⟩, ?_, ?_, ?_, ?_⟩
  · simp only [prefMatrixEntry, if_neg hne, prefCount, samePrefCount]
    refine length_filter_partition ballots _ _ _ (fun x _ => ⟨fun hp => ?_, rfl⟩)
    simp only [decide_eq_true_eq] at hp
    simp only [decide_eq_false_iff_not]
    omega
  · simp only [prefMatrixEntry, if_neg hne, if_neg (Ne.symm hne)]
  · simp [prefMatrixEntry]
  · intro cands M hM
    unfold calculate_preference_matrix at hM
    by_cases hcond : ballots = [] ∨ cands = []
    · simp [hcond] at hM
    · simp only [hcond, if_false] at hM
      exact (Option.some_inj.1 hM).symm
  · intro numC hne hi hj hball
    simp only [prefMatrixEntryIdx, if_neg hne]
    refine length_filter_partition ballots _ _ _ (fun x hx => ?_)
    have hlen : x.length = numC := hball x hx
    have hi' : ci < x.length := by omega
    have hj' : cj < x.length := by omega
    constructor
    · intro hp
      simp only [Bool.and_eq_true, decide_eq_true_eq] at hp
      simp only [Bool.and_eq_true, decide_eq_true_eq, Bool.and_eq_false_iff,
        decide_eq_false_iff_not]
      omega
    · simp [hi', hj']
  · intro hne
    simp only [prefMatrixEntryIdx, if_neg hne, if_neg (Ne.symm hne)]
    exact congrArg List.length (List.filter_congr (fun b _ => by
      simp [Bool.and_assoc, Bool.and_comm, Bool.and_left_comm]))

/-- C3 witness: the invariants evaluated on a concrete profile and pair. -/
theorem pairwise_tally_invariants_witness :
    ((prefMatrixEntry Pcex 0 1).1 + (prefMatrixEntry Pcex 0 1).2.1 +
        (prefMatrixEntry Pcex 0 1).2.2 = Pcex.length ∧
      (prefMatrixEntry Pcex 0 1).1 = (prefMatrixEntry Pcex 1 0).2.1) ∧
    (prefMatrixEntryIdx Pcex 0 1).1 + (prefMatrixEntryIdx Pcex 0 1).2.1 +
        (prefMatrixEntryIdx Pcex 0 1).2.2 = Pcex.length :=
  ⟨(pairwise_tally_invariants Pcex 0 1).1 (by decide),
   (pairwise_tally_invariants Pcex 0 1).2.2.2.1 3 (by decide) (by decide) (by decide)
     (by decide)⟩

/-! ### C4: at most one Condorcet winner -/

/-- C4. Two candidates that each strictly beat every other candidate
head-to-head must be equal, so the scanning resolver can never have two
distinct qualifying candidates; consequently, whenever some candidate in the
list beats all others, `get_condorcet_winner` returns exactly that
candidate. -/
theorem condorcet_winner_unique : ∀ (ballots : Profile) (cands : List Nat) (c1 c2 : Nat),
    (c1 ∈ cands → c2 ∈ cands → beatsAll ballots cands c1 = true →
      beatsAll ballots cands c2 = true → c1 = c2) ∧
    (c1 ∈ cands → beatsAll ballots cands c1 = true →
      get_condorcet_winner ballots cands = some c1) := by
  have key : ∀ (ballots : Profile) (cands : List Nat) (c1 c2 : Nat),
      c1 ∈ cands → c2 ∈ cands → beatsAll ballots cands c1 = true →
      beatsAll ballots cands c2 = true → c1 = c2 := by
    intro ballots cands c1 c2 h1 h2 hb1 hb2
    by_contra hne
    simp only [beatsAll, List.all_eq_true, Bool.or_eq_true, beq_iff_eq,
      decide_eq_true_eq] at hb1 hb2
    rcases hb1 c2 h2 with h | h
    · exact hne h.symm
    · rcases hb2 c1 h1 with h' | h'
      · exact hne h'
      · omega
  intro ballots cands c1 c2
  refine ⟨key ballots cands c1 c2, fun h1 hb1 => ?_⟩
  unfold get_condorcet_winner
  cases hfind : cands.find? (beatsAll ballots cands) with
  | none =>
    rw [List.find?_eq_none] at hfind
    exact absurd hb1 (hfind c1 h1)
  | some x =>
    have hx : beatsAll ballots cands x = true := List.find?_some hfind
    have hxmem : x ∈ cands := List.mem_of_find?_eq_some hfind
    rw [key ballots cands x c1 hxmem h1 hx hb1]

/-- C4 witness: on the concrete profile `Pcex`, candidate 2 beats all others
and the resolver returns it. -/
theorem condorcet_winner_unique_witness :
    get_condorcet_winner Pcex [0, 1, 2] = some 2 :=
  (condorcet_winner_unique Pcex [0, 1, 2] 2 0).2 (by decide) (by decide)

/-- A 3-candidate, 5-ballot profile exhibiting a triple divergence: the
Condorcet winner is 1, the score winner is 0, and the quick STAR winner is
2. -/
def Ptriple : Profile := [[5,0,0],[5,0,0],[0,2,1],[0,2,1],[0,1,4]]

/-! ### C7: the runoff round never silently resolves a tie -/

/-- C7. In the runoff round, strictly more supporting ballots win the
election for that finalist, a winner is always one of the two finalists, and
exact equality of support yields `none` (`NoWinner`) — never an arbitrary
candidate; `get_star_winner` reaches this runoff with the top two of the
scoring round. -/
theorem runoff_tie_yields_no_winner : ∀ (ballots : Profile) (fa fb : Nat),
    (prefCount ballots fb fa < prefCount ballots fa fb →
      runoffWinner ballots fa fb = some fa) ∧
    (prefCount ballots fa fb < prefCount ballots fb fa →
      runoffWinner ballots fa fb = some fb) ∧
    (runoffWinner ballots fa fb = none ↔
      prefCount ballots fa fb = prefCount ballots fb fa) ∧
    (∀ c, runoffWinner ballots fa fb = some c → c = fa ∨ c = fb) ∧
    (∀ (cands : List Nat) (a b : Nat) (rest : List Nat),
      sortByDesc (totalScore ballots) cands = a :: b :: rest →
      get_star_winner ballots cands = runoffWinner ballots a b) := by
  intro ballots fa fb
  refine ⟨?_, ?_, ?_, ?_, ?_⟩
  · intro h
    simp [runoffWinner, h]
  · intro h
    have h' : ¬ prefCount ballots fb fa < prefCount ballots fa fb := by omega
    simp [runoffWinner, h, h']
  · by_cases h1 : prefCount ballots fb fa < prefCount ballots fa fb <;>
      by_cases h2 : prefCount ballots fa fb < prefCount ballots fb fa <;>
      simp [runoffWinner, h1, h2] <;> omega
  · intro c h
    by_cases h1 : prefCount ballots fb fa < prefCount ballots fa fb
    · simp [runoffWinner, h1] at h
      exact Or.inl h.symm
    · by_cases h2 : prefCount ballots fa fb < prefCount ballots fb fa
      · simp [runoffWinner, h1, h2] at h
        exact Or.inr h.symm
      · simp [runoffWinner, h1, h2] at h
  · intro cands a b rest hsort
    simp [get_star_winner, hsort]

/-- C7 witness: a strict runoff on `Pcex` and an exact tie on the empty
profile. -/
theorem runoff_tie_yields_no_winner_witness :
    runoffWinner Pcex 0 1 = some 0 ∧ runoffWinner [] 0 1 = none :=
  ⟨(runoff_tie_yields_no_winner Pcex 0 1).1 (by decide),
   (runoff_tie_yields_no_winner [] 0 1).2.2.1.mpr (by decide)⟩

/-! ### C2: triple divergence is reported exactly when the three winners are
pairwise distinct -/

/-- C2. The phase-1 flag (`tripleDivFlag`, with the full resolver's winner as
`star`) is raised iff a Condorcet winner exists and the three winners are
pairwise distinct — never on a Cycle; and the Hunter's candidate test is
passed iff all three resolvers produce winners that are pairwise distinct. -/
theorem triple_divergence_classification :
    (∀ (cw : Option Nat) (sw star : Nat),
      tripleDivFlag cw sw star = true ↔
        ∃ c, cw = some c ∧ c ≠ sw ∧ sw ≠ star ∧ c ≠ star) ∧
    (∀ sw star, tripleDivFlag none sw star = false) ∧
    (∀ (ballots : Profile) (cands : List Nat),
      hunterTripleCandidate ballots cands = true ↔
        ∃ c w s, get_condorcet_winner ballots cands = some c ∧
          get_score_winner ballots cands = some w ∧
          get_star_winner_quick ballots cands = some s ∧
          c ≠ w ∧ w ≠ s ∧ c ≠ s) := by
  refine ⟨?_, ?_, ?_⟩
  · intro cw sw star
    cases cw with
    | none => simp [tripleDivFlag]
    | some c => simp [tripleDivFlag, bne_iff_ne, and_assoc]
  · intro sw star
    simp [tripleDivFlag]
  · intro ballots cands
    cases hcw : get_condorcet_winner ballots cands with
    | none => simp [hunterTripleCandidate, hcw]
    | some cw =>
      cases hsw : get_score_winner ballots cands with
      | none => simp [hunterTripleCandidate, hcw, hsw]
      | some sw =>
        by_cases hcs : cw = sw
        · subst hcs
          simp [hunterTripleCandidate, hcw, hsw]
        · cases hst : get_star_winner_quick ballots cands with
          | none => simp [hunterTripleCandidate, hcw, hsw, hcs, hst]
          | some st =>
            constructor
            · intro h
              simp only [hunterTripleCandidate, hcw, hsw, hst, beq_iff_eq, hcs,
                if_false, Bool.and_eq_true, bne_iff_ne] at h
              exact ⟨cw, sw, st, rfl, rfl, rfl, hcs, h.1.1, fun he => h.1.2 he.symm⟩
            · rintro ⟨c, w, s, hc, hw, hs, hne1, hne2, hne3⟩
              injection hc with hc
              injection hw with hw
              injection hs with hs
              subst hc; subst hw; subst hs
              simp only [hunterTripleCandidate, hcw, hsw, hst, beq_iff_eq, hcs,
                if_false, Bool.and_eq_true, bne_iff_ne]
              exact ⟨⟨hne2, fun he => hne3 he.symm⟩, Ne.symm hne1⟩

/-- C2 witness: on `Ptriple` the winners are 1 (Condorcet), 0 (Score),
2 (STAR) and the Hunter test passes; the phase-1 flag is raised on those
winners. -/
theorem triple_divergence_classification_witness :
    hunterTripleCandidate Ptriple [0, 1, 2] = true ∧
      tripleDivFlag (some 1) 0 2 = true :=
  ⟨(triple_divergence_classification.2.2 Ptriple [0, 1, 2]).mpr
      ⟨1, 0, 2, by decide, by decide, by decide, by decide, by decide, by decide⟩,
   (triple_divergence_classification.1 (some 1) 0 2).mpr
      ⟨1, rfl, by decide, by decide, by decide⟩⟩

/-! ### C9: the Hunter only emits verified triple divergences -/

/-- C9. The Hunter emits a sampled profile iff its candidate test passes and
the full STAR resolver's winner (modelled as the parameter `fullWinner`, the
value the code reads back from `solve_star_election_with_full_blocks`) agrees
with the quick estimate; whenever the two disagree the sample is discarded. -/
theorem hunter_emits_only_verified :
    ∀ (fullWinner : Option Nat) (ballots : Profile) (cands : List Nat),
    (hunterEmits fullWinner ballots cands = true ↔
      hunterTripleCandidate ballots cands = true ∧
        ∃ star, get_star_winner_quick ballots cands = some star ∧
          fullWinner = some star) ∧
    (∀ star, get_star_winner_quick ballots cands = some star →
      fullWinner ≠ some star → hunterEmits fullWinner ballots cands = false) := by
  intro fullWinner ballots cands
  have hiff : hunterEmits fullWinner ballots cands = true ↔
      hunterTripleCandidate ballots cands = true ∧
        ∃ star, get_star_winner_quick ballots cands = some star ∧
          fullWinner = some star := by
    cases hcw : get_condorcet_winner ballots cands with
    | none => simp [hunterEmits, hunterTripleCandidate, hcw]
    | some cw =>
      cases hsw : get_score_winner ballots cands with
      | none => simp [hunterEmits, hunterTripleCandidate, hcw, hsw]
      | some sw =>
        by_cases hcs : cw = sw
        · subst hcs
          simp [hunterEmits, hunterTripleCandidate, hcw, hsw]
        · cases hst : get_star_winner_quick ballots cands with
          | none => simp [hunterEmits, hunterTripleCandidate, hcw, hsw, hcs, hst]
          | some st =>
            cases hcond : (sw != st && st != cw && sw != cw) with
            | true =>
              simp only [hunterEmits, hunterTripleCandidate, hcw, hsw, hst,
                beq_iff_eq, hcs, if_false, hcond, if_true]
              constructor
              · intro h
                exact ⟨trivial, st, rfl, by simpa [beq_iff_eq] using h⟩
              · rintro ⟨-, star, hstar, hfw⟩
                injection hstar with hstar
                subst hstar
                simpa [beq_iff_eq] using hfw
            | false =>
              simp [hunterEmits, hunterTripleCandidate, hcw, hsw, hcs, hst, hcond]
  refine ⟨hiff, fun star hst hne => ?_⟩
  cases hem : hunterEmits fullWinner ballots cands with
  | false => rfl
  | true =>
    obtain ⟨-, st', hst', hfw⟩ := hiff.1 hem
    rw [hst] at hst'
    injection hst' with hst'
    subst hst'
    exact absurd hfw hne

/-- C9 witness: on `Ptriple` the Hunter emits when the full resolver agrees
(`some 2`) and discards when it disagrees (`some 0`). -/
theorem hunter_emits_only_verified_witness :
    hunterEmits (some 2) Ptriple [0, 1, 2] = true ∧
      hunterEmits (some 0) Ptriple [0, 1, 2] = false :=
  ⟨(hunter_emits_only_verified (some 2) Ptriple [0, 1, 2]).1.mpr
      ⟨by decide, 2, by decide, rfl⟩,
   (hunter_emits_only_verified (some 0) Ptriple [0, 1, 2]).2 2 (by decide)
      (by decide)⟩

/-! ### C10: the sequence tiebreaker ignores its mode -/

/-- C10. `SilentSequenceTiebreaker` ignores the mode it was constructed with:
for every mode it returns `sorted(tie)[:desired]` — the lexicographically
first `desired` members of the tie set (every returned element is at most
every non-returned member of the tie) — and returns only `tie.length`
candidates whenever the tie set is smaller than `desired`. -/
theorem silent_tiebreaker_ignores_mode :
    ∀ (m m' : String) (options tie : List Nat) (desired : Nat),
    SilentSequenceTiebreaker.call ⟨m⟩ options tie desired =
      SilentSequenceTiebreaker.call ⟨m'⟩ options tie desired ∧
    SilentSequenceTiebreaker.call ⟨m⟩ options tie desired =
      (sortAsc tie).take desired ∧
    (SilentSequenceTiebreaker.call ⟨m⟩ options tie desired).length =
      min desired tie.length ∧
    (∀ x ∈ SilentSequenceTiebreaker.call ⟨m⟩ options tie desired, x ∈ tie) ∧
    (tie.length < desired →
      (SilentSequenceTiebreaker.call ⟨m⟩ options tie desired).length = tie.length) ∧
    (∀ x ∈ SilentSequenceTiebreaker.call ⟨m⟩ options tie desired, ∀ y ∈ tie,
      y ∉ SilentSequenceTiebreaker.call ⟨m⟩ options tie desired → x ≤ y) := by
  intro m m' options tie desired
  have hlen : (sortAsc tie).length = tie.length := (sortAsc_perm tie).length_eq
  refine ⟨rfl, rfl, ?_, ?_, ?_, ?_⟩
  · simp [SilentSequenceTiebreaker.call, List.length_take, hlen]
  · intro x hx
    exact (sortAsc_perm tie).mem_iff.1 (List.mem_of_mem_take hx)
  · intro h
    simp [SilentSequenceTiebreaker.call, List.length_take, hlen]
    omega
  · intro x hx y hy hyn
    have hy' : y ∈ (sortAsc tie).take desired ++ (sortAsc tie).drop desired := by
      rw [List.take_append_drop]
      exact (sortAsc_perm tie).mem_iff.2 hy
    have hyd : y ∈ (sortAsc tie).drop desired := by
      rcases List.mem_append.1 hy' with h | h
      · exact absurd h hyn
      · exact h
    have hsorted : ((sortAsc tie).take desired ++ (sortAsc tie).drop desired).Pairwise
        (· ≤ ·) := by
      rw [List.take_append_drop]
      exact sortAsc_sorted tie
    exact (List.pairwise_append.1 hsorted).2.2 x hx y hyd

/-- C10 witness: with tie set `{3, 1, 2}` every mode returns `[1, 2]` for two
desired winners, and a three-element tie yields only three candidates when
five are desired. -/
theorem silent_tiebreaker_ignores_mode_witness :
    SilentSequenceTiebreaker.call ⟨"left"⟩ [] [3, 1, 2] 2 =
      SilentSequenceTiebreaker.call ⟨"right"⟩ [] [3, 1, 2] 2 ∧
    (SilentSequenceTiebreaker.call ⟨"left"⟩ [] [3, 1, 2] 5).length = 3 :=
  ⟨(silent_tiebreaker_ignores_mode "left" "right" [] [3, 1, 2] 2).1,
   (silent_tiebreaker_ignores_mode "left" "right" [] [3, 1, 2] 5).2.2.2.2.1
     (by decide)⟩

/-! ### C6: boundary sampling evaluates exactly the first and last chunks -/

/-- C6. Chunk assignment is integer division of the sequence position by the
chunk size, and for a 100-profile space with chunk size 30 and one first plus
one last chunk, exactly the positions 0..29 and 90..99 are evaluated — 40 of
the 100 positions — and the middle positions 30..89 never are. -/
theorem boundary_sampling_exact :
    (∀ rows i, chunkIndex rows i = i / rows) ∧
    (∀ i, isEvaluated 30 1 1 (totalChunksFor 100 30) i = true ↔ (i < 30 ∨ 90 ≤ i)) ∧
    ((List.range 100).filter (isEvaluated 30 1 1 (totalChunksFor 100 30))).length = 40 ∧
    (∀ i, 30 ≤ i → i < 90 → isEvaluated 30 1 1 (totalChunksFor 100 30) i = false) := by
  have htc : totalChunksFor 100 30 = 4 := rfl
  refine ⟨fun rows i => rfl, ?_, by decide, ?_⟩
  · intro i
    rw [htc]
    simp only [isEvaluated, chunkIndex, Bool.or_eq_true, decide_eq_true_eq]
    omega
  · intro i h1 h2
    rw [htc]
    simp only [isEvaluated, chunkIndex, Bool.or_eq_false_iff, decide_eq_false_iff_not]
    omega

/-- C6 witness: position 95 is evaluated, position 45 is not. -/
theorem boundary_sampling_exact_witness :
    isEvaluated 30 1 1 (totalChunksFor 100 30) 95 = true ∧
      isEvaluated 30 1 1 (totalChunksFor 100 30) 45 = false :=
  ⟨(boundary_sampling_exact.2.1 95).mpr (by omega),
   boundary_sampling_exact.2.2.2 45 (by omega) (by omega)⟩

/-! ### C8: behaviour of the resolvers on an empty profile -/

/-- C8 counterexample: the Score resolver does not reject an empty profile —
it silently returns the first candidate (every total is 0). -/
theorem empty_profile_not_rejected_cex :
    get_score_winner [] [0, 1, 2] = some 0 := by decide

/-- C8 as amended: no resolver raises an invalid-input error on an empty
profile.  With at least two distinct candidates, `get_score_winner` silently
returns the first candidate in enumeration order as winner,
`get_condorcet_winner` returns `none` (reported as "Cycle"), and
`get_star_winner_quick` returns `none` (a runoff tie). -/
theorem empty_profile_behavior : ∀ (cands : List Nat),
    2 ≤ cands.length → cands.Nodup →
    get_score_winner [] cands = cands.head? ∧
    get_condorcet_winner [] cands = none ∧
    get_star_winner_quick [] cands = none := by
  intro cands hlen hnodup
  have hconst : ∀ a b : Nat, totalScore ([] : Profile) a = totalScore [] b :=
    fun a b => rfl
  have hsort : sortByDesc (totalScore []) cands = cands :=
    sortByDesc_const _ cands hconst
  obtain ⟨a, b, rest, hab⟩ : ∃ a b rest, cands = a :: b :: rest := by
    match cands, hlen with
    | a :: b :: rest, _ => exact ⟨a, b, rest, rfl⟩
  subst hab
  refine ⟨?_, ?_, ?_⟩
  · unfold get_score_winner
    rw [hsort]
  · unfold get_condorcet_winner
    rw [List.find?_eq_none]
    intro c hc hb
    simp only [beatsAll, List.all_eq_true, Bool.or_eq_true, beq_iff_eq,
      decide_eq_true_eq] at hb
    have hne : a ≠ b := by
      rw [List.nodup_cons] at hnodup
      exact fun h => hnodup.1 (h ▸ List.mem_cons_self b rest)
    rcases eq_or_ne a c with hac | hac
    · rcases hb b (List.mem_cons_of_mem a (List.mem_cons_self b rest)) with h | h
      · exact hne (hac.trans h.symm)
      · simp [prefCount] at h
    · rcases hb a (List.mem_cons_self a (b :: rest)) with h | h
      · exact hac h
      · simp [prefCount] at h
  · unfold get_star_winner_quick
    rw [hsort]
    cases rest with
    | nil => simp [runoffWinner, prefCount]
    | cons c3 rest' => simp [runoffWinner, prefCount]

/-- C8 witness: the amended behaviour evaluated on the candidate list
`[5, 7]`. -/
theorem empty_profile_behavior_witness :
    get_score_winner [] [5, 7] = some 5 ∧
    get_condorcet_winner [] [5, 7] = none ∧
    get_star_winner_quick [] [5, 7] = none := by
  have h := empty_profile_behavior [5, 7] (by decide) (by decide)
  simpa using h

/-! ### C1: the 2nd/3rd scoring-round tie-break -/

/-- C1 counterexample: on `Pcex` the 2nd- and 3rd-ranked candidates are tied
(totals 10 and 10) and candidate 2 is preferred head-to-head over candidate 1
(3 ballots to 2), so the spec's rule (and `get_star_winner_quick`) promotes
candidate 2 to finalist B, making 2 the STAR winner — but the hunter estimate
`get_star_winner` of sim_total_divergence_CW_SCORE_RUNOFF.py ignores the
tie-break and elects candidate 0 instead: it does not replicate the rule. -/
theorem scoring_tiebreak_rule_cex :
    totalScore Pcex 1 = totalScore Pcex 2 ∧
    prefCount Pcex 2 1 = 3 ∧ prefCount Pcex 1 2 = 2 ∧
    get_star_winner Pcex [0, 1, 2] = some 0 ∧
    starRuleSpec Pcex [0, 1, 2] = some 2 ∧
    get_star_winner_quick Pcex [0, 1, 2] = some 2 := by decide

/-- C1 as amended: over a strictly ascending candidate list (as all the
scripts build them), `get_star_winner_quick` implements the spec's scoring
tie-break rule exactly: a 2nd/3rd total-score tie is decided by their
head-to-head, and a tied head-to-head falls through to the configured
`SilentSequenceTiebreaker` — which returns the stable-sort 2nd candidate, the
one the code keeps. -/
theorem quick_star_follows_spec_rule :
    ∀ (ballots : Profile) (cands : List Nat), cands.Pairwise (· < ·) →
    get_star_winner_quick ballots cands = starRuleSpec ballots cands := by
  intro ballots cands hc
  have hstab := sortByDesc_stab (totalScore ballots) cands hc
  cases hs : sortByDesc (totalScore ballots) cands with
  | nil => simp [get_star_winner_quick, starRuleSpec, hs]
  | cons a tail =>
    cases tail with
    | nil => simp [get_star_winner_quick, starRuleSpec, hs]
    | cons b rest =>
      rw [hs] at hstab
      cases rest with
      | nil => simp [get_star_winner_quick, starRuleSpec, hs]
      | cons c3 rest' =>
        have hbc : stabRel (totalScore ballots) b c3 :=
          (List.pairwise_cons.1 (List.pairwise_cons.1 hstab).2).1 c3
            (List.mem_cons_self c3 rest')
        by_cases ht : totalScore ballots b = totalScore ballots c3
        · have hblt : b < c3 := by
            rcases hbc with h | h
            · omega
            · exact h.2
          by_cases h32 : prefCount ballots b c3 < prefCount ballots c3 b
          · have h23 : ¬ prefCount ballots c3 b < prefCount ballots b c3 := by omega
            simp [get_star_winner_quick, starRuleSpec, hs, ht, h32, specFinalistB, h23]
          · by_cases h23 : prefCount ballots c3 b < prefCount ballots b c3
            · simp [get_star_winner_quick, starRuleSpec, hs, ht, h32, specFinalistB,
                h23]
            · have hcall : SilentSequenceTiebreaker.call ⟨"left"⟩ [] [b, c3] 1 = [b] := by
                simp [SilentSequenceTiebreaker.call, sortAsc, insertAsc,
                  Nat.le_of_lt hblt]
              simp [get_star_winner_quick, starRuleSpec, hs, ht, h32, specFinalistB,
                h23, hcall]
        · simp [get_star_winner_quick, starRuleSpec, hs, ht]

/-- C1 witness: the amended refinement evaluated on `Pcex`, whose 2nd/3rd
candidates are tied in total score. -/
theorem quick_star_follows_spec_rule_witness :
    get_star_winner_quick Pcex [0, 1, 2] = starRuleSpec Pcex [0, 1, 2] :=
  quick_star_follows_spec_rule Pcex [0, 1, 2] (by decide)

/-! ### Enumerator lemmas -/

theorem productStep_length (scores : List Nat) (ts : List (List Nat)) :
    (productStep scores ts).length = scores.length * ts.length := by
  induction scores with
  | nil => simp [productStep]
  | cons s rest ih =>
    simp [productStep, prependEach, ih, Nat.succ_mul, Nat.add_comm]

theorem pyProduct_length (scores : List Nat) (n : Nat) :
    (pyProduct scores n).length = scores.length ^ n := by
  induction n with
  | zero => simp [pyProduct]
  | succ n ih =>
    rw [pyProduct, productStep_length, ih, Nat.pow_succ, Nat.mul_comm]

theorem mem_productStep {scores : List Nat} {ts : List (List Nat)} {t : List Nat} :
    t ∈ productStep scores ts ↔ ∃ s ∈ scores, ∃ u ∈ ts, t = s :: u := by
  induction scores with
  | nil => simp [productStep]
  | cons s rest ih =>
    simp only [productStep, prependEach, List.mem_append, List.mem_map, ih,
      List.mem_cons]
    constructor
    · rintro (⟨u, hu, ht⟩ | ⟨s', hs', u, hu, ht⟩)
      · exact ⟨s, Or.inl rfl, u, hu, ht.symm⟩
      · exact ⟨s', Or.inr hs', u, hu, ht⟩
    · rintro ⟨s', hs' | hs', u, hu, ht⟩
      · exact Or.inl ⟨u, hu, (hs' ▸ ht).symm⟩
      · exact Or.inr ⟨s', hs', u, hu, ht⟩

theorem productStep_nodup (scores : List Nat) (ts : List (List Nat))
    (hs : scores.Nodup) (hts : ts.Nodup) : (productStep scores ts).Nodup := by
  induction scores with
  | nil => simp [productStep]
  | cons s rest ih =>
    rw [List.nodup_cons] at hs
    rw [productStep, List.nodup_append]
    refine ⟨List.Nodup.map List.cons_injective hts, ih hs.2, ?_⟩
    intro t ht1 ht2
    obtain ⟨u, hu, htu⟩ := List.mem_map.1 ht1
    obtain ⟨s', hs', u', hu', htu'⟩ := mem_productStep.1 ht2
    rw [← htu] at htu'
    injection htu' with h1 h2
    exact hs.1 (h1 ▸ hs')

theorem pyProduct_nodup (scores : List Nat) (n : Nat) (hs : scores.Nodup) :
    (pyProduct scores n).Nodup := by
  induction n with
  | zero => simp [pyProduct]
  | succ n ih => exact productStep_nodup scores (pyProduct scores n) hs ih

theorem cwr_length (pool : List (List Nat)) (r : Nat) :
    (cwr pool r).length = Nat.multichoose pool.length r := by
  match pool, r with
  | pool, 0 => simp [cwr, Nat.multichoose_zero_right]
  | [], s + 1 => simp [cwr, Nat.multichoose_zero_succ]
  | x :: xs, s + 1 =>
    have h1 := cwr_length (x :: xs) s
    have h2 := cwr_length xs (s + 1)
    rw [cwr]
    simp only [List.length_append, List.length_map, h1, h2, List.length_cons]
    rw [Nat.multichoose_succ_succ]
    omega
termination_by (r, pool.length)

theorem mem_cwr_sub {pool : List (List Nat)} {r : Nat} {t : List (List Nat)}
    (ht : t ∈ cwr pool r) : ∀ y ∈ t, y ∈ pool := by
  match pool, r with
  | pool, 0 =>
    simp only [cwr, List.mem_singleton] at ht
    subst ht
    simp
  | [], s + 1 => simp [cwr] at ht
  | x :: xs, s + 1 =>
    rw [cwr] at ht
    rcases List.mem_append.1 ht with h | h
    · obtain ⟨u, hu, htu⟩ := List.mem_map.1 h
      subst htu
      intro y hy
      rcases List.mem_cons.1 hy with hyx | hyu
      · exact hyx ▸ List.mem_cons_self x xs
      · exact mem_cwr_sub hu y hyu
    · intro y hy
      exact List.mem_cons_of_mem x (mem_cwr_sub h y hy)
termination_by (r, pool.length)

theorem mem_cwr_length {pool : List (List Nat)} {r : Nat} {t : List (List Nat)}
    (ht : t ∈ cwr pool r) : t.length = r := by
  match pool, r with
  | pool, 0 =>
    simp only [cwr, List.mem_singleton] at ht
    subst ht
    rfl
  | [], s + 1 => simp [cwr] at ht
  | x :: xs, s + 1 =>
    rw [cwr] at ht
    rcases List.mem_append.1 ht with h | h
    · obtain ⟨u, hu, htu⟩ := List.mem_map.1 h
      subst htu
      simp [mem_cwr_length hu]
    · exact mem_cwr_length h
termination_by (r, pool.length)

theorem cwr_nodup (pool : List (List Nat)) (r : Nat) (hp : pool.Nodup) :
    (cwr pool r).Nodup := by
  match pool, r with
  | pool, 0 => simp [cwr]
  | [], s + 1 => simp [cwr]
  | x :: xs, s + 1 =>
    rw [cwr, List.nodup_append]
    have hx : x ∉ xs := (List.nodup_cons.1 hp).1
    refine ⟨List.Nodup.map List.cons_injective (cwr_nodup (x :: xs) s hp),
      cwr_nodup xs (s + 1) (List.nodup_cons.1 hp).2, ?_⟩
    intro t ht1 ht2
    obtain ⟨u, hu, htu⟩ := List.mem_map.1 ht1
    subst htu
    exact hx (mem_cwr_sub ht2 x (List.mem_cons_self x u))
termination_by (r, pool.length)

/-- Completeness of `cwr`: every multiset of the right size over the pool
appears (up to permutation, i.e. as its canonical non-decreasing listing). -/
theorem cwr_complete_aux : ∀ (n : Nat) (pool : List (List Nat)) (r : Nat)
    (l : List (List Nat)), pool.length + r ≤ n → l.length = r →
    (∀ y ∈ l, y ∈ pool) → ∃ t, t ∈ cwr pool r ∧ t.Perm l := by
  intro n
  induction n with
  | zero =>
    intro pool r l hn hlen hmem
    have hr : r = 0 := by omega
    subst hr
    rw [List.length_eq_zero] at hlen
    subst hlen
    exact ⟨[], by simp [cwr], List.Perm.refl _⟩
  | succ n ih =>
    intro pool r l hn hlen hmem
    cases r with
    | zero =>
      rw [List.length_eq_zero] at hlen
      subst hlen
      exact ⟨[], by simp [cwr], List.Perm.refl _⟩
    | succ s =>
      cases pool with
      | nil =>
        cases l with
        | nil => simp at hlen
        | cons y l' => exact absurd (hmem y (List.mem_cons_self y l')) (by simp)
      | cons x xs =>
        by_cases hx : x ∈ l
        · obtain ⟨l', hperm⟩ : ∃ l', l.Perm (x :: l') :=
            ⟨_, List.perm_cons_erase hx⟩
          have hlen' : l'.length = s := by
            have := hperm.length_eq
            simp at this
            omega
          have hmem' : ∀ y ∈ l', y ∈ x :: xs :=
            fun y hy => hmem y (hperm.mem_iff.2 (List.mem_cons_of_mem x hy))
          obtain ⟨t, htmem, htperm⟩ := ih (x :: xs) s l'
            (by simp at hn ⊢; omega) hlen' hmem'
          refine ⟨x :: t, ?_, ?_⟩
          · rw [cwr]
            exact List.mem_append_left _ (List.mem_map.2 ⟨t, htmem, rfl⟩)
          · exact (htperm.cons x).trans hperm.symm
        · have hmem' : ∀ y ∈ l, y ∈ xs := by
            intro y hy
            rcases List.mem_cons.1 (hmem y hy) with h | h
            · exact absurd (h ▸ hy) hx
            · exact h
          obtain ⟨t, htmem, htperm⟩ := ih xs (s + 1) l
            (by simp at hn ⊢; omega) hlen hmem'
          refine ⟨t, ?_, htperm⟩
          rw [cwr]
          exact List.mem_append_right _ htmem

/-! ### C5: the enumerator's combinatorial guarantees -/

/-- C5. The ballot-type menu `itertools.product(scores, repeat=C)` has
exactly `M^C` entries, all distinct when the score menu is duplicate-free;
the profile enumeration `combinations_with_replacement(menu, K)` has exactly
`choose(M^C + K - 1, K)` entries, without duplicates and without omissions
(every size-`K` multiset over the menu occurs); for menu `[0,2,5]`, 2
candidates and 4 ballots the enumeration has exactly `C(12,4) = 495`
profiles. -/
theorem enumerator_counts : ∀ (scores : List Nat) (C K : Nat),
    (pyProduct scores C).length = scores.length ^ C ∧
    (scores.Nodup → (pyProduct scores C).Nodup) ∧
    (cwr (pyProduct scores C) K).length =
      Nat.choose (scores.length ^ C + K - 1) K ∧
    (scores.Nodup → (cwr (pyProduct scores C) K).Nodup) ∧
    (∀ l : List (List Nat), l.length = K → (∀ b ∈ l, b ∈ pyProduct scores C) →
      ∃ t, t ∈ cwr (pyProduct scores C) K ∧ t.Perm l) ∧
    (cwr (pyProduct [0, 2, 5] 2) 4).length = 495 := by
  intro scores C K
  refine ⟨pyProduct_length scores C, pyProduct_nodup scores C, ?_,
    fun h => cwr_nodup _ K (pyProduct_nodup scores C h), ?_, ?_⟩
  · rw [cwr_length, Nat.multichoose_eq, pyProduct_length]
  · intro l hlen hmem
    exact cwr_complete_aux ((pyProduct scores C).length + K) _ K l le_rfl hlen hmem
  · rw [cwr_length, Nat.multichoose_eq, pyProduct_length]
    decide

/-- C5 witness: the 495-profile instance together with distinctness of the
9-entry menu, and the canonical representative of a concrete 4-ballot
multiset. -/
theorem enumerator_counts_witness :
    (pyProduct [0, 2, 5] 2).Nodup ∧
    (cwr (pyProduct [0, 2, 5] 2) 4).length = 495 ∧
    ∃ t, t ∈ cwr (pyProduct [0, 2, 5] 2) 4 ∧
      t.Perm [[5, 2], [0, 0], [2, 5], [0, 0]] :=
  ⟨(enumerator_counts [0, 2, 5] 2 4).2.1 (by decide),
   (enumerator_counts [0, 2, 5] 2 4).2.2.2.2.2,
   (enumerator_counts [0, 2, 5] 2 4).2.2.2.2.1 [[5, 2], [0, 0], [2, 5], [0, 0]]
     (by decide) (by decide)⟩
